import Mathlib

/-!
# Verification of the `erik404/blockchain` ledger core

A shallow embedding of the ledger engine (`src/core/blockchain.rs`,
`src/core/block.rs`, `src/common/calculate_hash.rs`, `src/structs/token.rs`,
`src/structs/transaction.rs`, `src/errors/transaction_errors.rs`) together
with theorems about its behaviour.

Modelling conventions:
* Rust `u64` values are `Nat` together with the explicit bound `U64LIMIT = 2 ^ 64`
  wherever overflow matters; wrapping arithmetic is written with an explicit
  `% U64LIMIT`.
* `HashMap<String, u64>` is an association list (`AccountMap`); lookup order of
  a Rust `HashMap` never matters to the embedded code (it only ever iterates
  over `Vec`s), so the association-list semantics of `lookup`/`set` is faithful.
* The SHA-256 digest (crate `sha2`, an external dependency) is an abstract
  parameter `sha : String → String`; `calculate_block_hash` builds exactly the
  concatenation the source builds and applies `sha` to it.
* `Utc::now()` is an explicit `timestamp` argument; the unbounded mining loop
  takes explicit `fuel`, returning `none` when the search has not terminated
  within `fuel` further iterations (the Rust loop would still be running).
-/

namespace Blockchain

set_option autoImplicit false

/-- `2 ^ 64`, the number of values of a Rust `u64`. -/
def U64LIMIT : Nat := 2 ^ 64

/-- `src/structs/transaction.rs`: a value transfer between two named accounts.
`amount` is a `u64` (denominated in the token's smallest unit). -/
structure Transaction where
  sender : String
  receiver : String
  amount : Nat
  deriving DecidableEq, Repr

/-- `Transaction::stringify`: `format!("{}{}{}", sender, receiver, amount)`. -/
def Transaction.stringify (t : Transaction) : String :=
  t.sender ++ t.receiver ++ toString t.amount

/-- `src/errors/transaction_errors.rs`: the closed set of validation failures. -/
inductive TransactionError where
  | AddressCannotBeEmpty
  | SenderAndReceiverCannotBeTheSame
  | AmountMustBeGreaterThanZero
  | InsufficientBalance (sender : String) (requested available : Nat)
  | SenderDoesNotExist (sender : String)
  | BalanceOverflow
  deriving DecidableEq, Repr

/-- The account table `HashMap<String, u64>`, as an association list. -/
abbrev AccountMap := List (String × Nat)

/-- `HashMap::get`: the value stored at `key`, if any. -/
def amLookup : AccountMap → String → Option Nat
  | [], _ => none
  | (k, v) :: rest, key => if k = key then some v else amLookup rest key

/-- `HashMap::insert` (update the entry in place, or add it). -/
def amSet : AccountMap → String → Nat → AccountMap
  | [], key, val => [(key, val)]
  | (k, v) :: rest, key, val =>
    if k = key then (k, val) :: rest else (k, v) :: amSet rest key val

/-- The balance at `key`, defaulting to `0` (`entry(key).or_insert(0)` reads
this value). -/
def amGetD (m : AccountMap) (key : String) : Nat :=
  (amLookup m key).getD 0

/-- `HashMap::entry(key).or_insert(0)` as a map transformer: inserts `0` at
`key` when `key` is absent, otherwise leaves the map unchanged. -/
def amOrInsert0 (m : AccountMap) (key : String) : AccountMap :=
  match amLookup m key with
  | some _ => m
  | none => amSet m key 0

/-- Every stored balance is a `u64` value. -/
abbrev amWF (m : AccountMap) : Prop :=
  ∀ p ∈ m, p.2 < U64LIMIT

/-- `Blockchain::validate_transaction_with_temp_balances`
(`src/core/blockchain.rs` lines 151-188).  The Rust function mutates
`temp_balances` and returns `Result<(), TransactionError>`; here it returns
the `Result` paired with the map as left behind (on some error paths the map
has already been mutated by `entry(receiver).or_insert(0)`).  Checks, in
source order: empty address, sender = receiver, zero amount, receiver-credit
`u64` overflow (`checked_add`), unknown sender, insufficient balance.  The
final credit uses a plain `+` because the `checked_add` guard has already
ruled out overflow on exactly that sum. -/
def validateTransactionWithTempBalances (t : Transaction) (temp : AccountMap) :
    Except TransactionError Unit × AccountMap :=
  if t.sender = "" ∨ t.receiver = "" then
    (.error .AddressCannotBeEmpty, temp)
  else if t.sender = t.receiver then
    (.error .SenderAndReceiverCannotBeTheSame, temp)
  else if t.amount = 0 then
    (.error .AmountMustBeGreaterThanZero, temp)
  else
    let temp1 := amOrInsert0 temp t.receiver
    let receiverBalance := amGetD temp1 t.receiver
    if U64LIMIT ≤ receiverBalance + t.amount then
      (.error .BalanceOverflow, temp1)
    else
      match amLookup temp1 t.sender with
      | none => (.error (.SenderDoesNotExist t.sender), temp1)
      | some senderBalance =>
        if senderBalance < t.amount then
          (.error (.InsufficientBalance t.sender t.amount senderBalance), temp1)
        else
          let temp2 := amSet temp1 t.sender (senderBalance - t.amount)
          let temp3 := amSet temp2 t.receiver (amGetD temp2 t.receiver + t.amount)
          (.ok (), temp3)

/-- The loop body of `Blockchain::process_mempool` (lines 104-120), recursing
over the remaining mempool: validates each transaction against the running
temporary balances, keeps the ones that validate, and returns the accepted
batch together with the final temporary balances (the Rust code drops the
temporary map; it is carried here so that the invariant can be stated). -/
def processMempoolAux (temp : AccountMap) : List Transaction → List Transaction × AccountMap
  | [] => ([], temp)
  | t :: rest =>
    let res := validateTransactionWithTempBalances t temp
    match res.fst with
    | .error _ => processMempoolAux res.snd rest
    | .ok _ =>
      let out := processMempoolAux res.snd rest
      (t :: out.fst, out.snd)

/-- `Blockchain::process_mempool`: the accepted batch, validated against a
clone of the committed accounts.  (The Rust method also clears `self.mempool`;
`Blockchain.addBlock` below performs that clearing on the ledger state.) -/
def processMempool (accounts : AccountMap) (mempool : List Transaction) : List Transaction :=
  (processMempoolAux accounts mempool).fst

/-- `Blockchain::execute_transactions` (lines 130-138): unchecked `u64`
debit/credit, in batch order.  `*accounts.entry(k).or_insert(0) -= a` reads
the balance (default `0`) and stores the wrapping difference; likewise `+=`
stores the wrapping sum. -/
def executeTransactions (accounts : AccountMap) : List Transaction → AccountMap
  | [] => accounts
  | t :: rest =>
    let a1 := amSet accounts t.sender
      ((amGetD accounts t.sender + U64LIMIT - t.amount) % U64LIMIT)
    let a2 := amSet a1 t.receiver ((amGetD a1 t.receiver + t.amount) % U64LIMIT)
    executeTransactions a2 rest

/-- `execSafe accounts batch` holds when replaying `batch` on `accounts`
(exactly as `execute_transactions` does) hits no `u64` underflow on a debit
and no `u64` overflow on a credit: at every step the sender's balance covers
the amount and the receiver's credited balance stays below `2 ^ 64`. -/
def execSafe (accounts : AccountMap) : List Transaction → Bool
  | [] => true
  | t :: rest =>
    let sbal := amGetD accounts t.sender
    if sbal < t.amount then false
    else
      let a1 := amSet accounts t.sender (sbal - t.amount)
      let rbal := amGetD a1 t.receiver
      if U64LIMIT ≤ rbal + t.amount then false
      else execSafe (amSet a1 t.receiver (rbal + t.amount)) rest

/-- `transactions_string` (`src/common/calculate_hash.rs`): concatenation of
every transaction's `stringify()`, in block order. -/
def transactionsString (transactions : List Transaction) : String :=
  transactions.foldl (fun acc t => acc ++ t.stringify) ""

/-- `calculate_block_hash`: concatenates index, timestamp, transaction string,
previous hash and nonce, then applies the SHA-256 hex digest `sha` (the
`sha2` crate, abstracted as a function parameter). -/
def calculateBlockHash (sha : String → String) (index : Nat) (timestamp : String)
    (transactions : List Transaction) (previousHash : String) (nonce : Nat) : String :=
  sha (toString index ++ timestamp ++ transactionsString transactions ++
    previousHash ++ toString nonce)

/-- `src/core/block.rs`: a mined, hash-sealed container of a transaction
batch.  `index` is a `u32`, `nonce` a `u64`. -/
structure Block where
  index : Nat
  timestamp : String
  transactions : List Transaction
  previous_hash : String
  hash : String
  nonce : Nat
  deriving DecidableEq, Repr

/-- The recomputed digest of a block's own stored fields, as `is_valid` and
the tests recompute it. -/
def blockStoredHash (sha : String → String) (b : Block) : String :=
  calculateBlockHash sha b.index b.timestamp b.transactions b.previous_hash b.nonce

/-- The mining target `"0".repeat(difficulty)`. -/
def miningTarget (difficulty : Nat) : String :=
  String.mk (List.replicate difficulty '0')

/-- Character-level prefix test. -/
def startsWithChars : List Char → List Char → Bool
  | [], _ => true
  | _ :: _, [] => false
  | c :: cs, d :: ds => c == d && startsWithChars cs ds

/-- Rust `str::starts_with`, on the character sequences of the two strings. -/
def stringStartsWith (p s : String) : Bool :=
  startsWithChars p.data s.data

/-- The `while` loop of `Block::mine`: test the current hash against the
target; while it misses, bump the nonce (`u64`, so wrapping at `2 ^ 64`) and
recompute the hash.  `fuel` bounds the number of further iterations; `none`
means the Rust loop would still be running after `fuel` bumps. -/
def mineLoop (sha : String → String) (index : Nat) (timestamp : String)
    (transactions : List Transaction) (previousHash : String) (difficulty : Nat) :
    Nat → Nat → String → Option Block
  | 0, nonce, hash =>
    if stringStartsWith (miningTarget difficulty) hash then
      some ⟨index, timestamp, transactions, previousHash, hash, nonce⟩
    else none
  | fuel + 1, nonce, hash =>
    if stringStartsWith (miningTarget difficulty) hash then
      some ⟨index, timestamp, transactions, previousHash, hash, nonce⟩
    else
      mineLoop sha index timestamp transactions previousHash difficulty fuel
        ((nonce + 1) % U64LIMIT)
        (calculateBlockHash sha index timestamp transactions previousHash
          ((nonce + 1) % U64LIMIT))

/-- `Block::new` (lines 18-44): fills in the fields with nonce `0`, computes
the initial hash, then mines.  `timestamp` stands for `Utc::now().to_rfc3339()`. -/
def blockNew (sha : String → String) (index : Nat) (transactions : List Transaction)
    (previousHash : String) (difficulty : Nat) (timestamp : String) (fuel : Nat) :
    Option Block :=
  mineLoop sha index timestamp transactions previousHash difficulty fuel 0
    (calculateBlockHash sha index timestamp transactions previousHash 0)

/-- `src/structs/token.rs`: the token descriptor. -/
structure Token where
  name : String
  symbol : String
  decimals : Nat
  smallest_unit : Nat
  total_supply : Nat
  deriving DecidableEq, Repr

/-- `Token::new`: derives `smallest_unit = 10 ^ decimals`. -/
def tokenNew (name symbol : String) (decimals totalSupply : Nat) : Token :=
  { name := name, symbol := symbol, decimals := decimals,
    smallest_unit := 10 ^ decimals, total_supply := totalSupply }

/-- Rust's `{:0width$}` formatting of a `u64`: the decimal representation,
left-padded with `'0'` to at least `width` characters (never truncated). -/
def padZeros (width : Nat) (n : Nat) : String :=
  String.mk (List.replicate (width - (toString n).length) '0') ++ toString n

/-- `Token::format_amount` (lines 27-36): `"{whole}.{fractional:0decimals}"`
with `whole = amount / smallest_unit` and `fractional = amount % smallest_unit`. -/
def Token.formatAmount (token : Token) (amount : Nat) : String :=
  toString (amount / token.smallest_unit) ++ "." ++
    padZeros token.decimals (amount % token.smallest_unit)

/-- `src/config.rs`: the configuration record consumed by `Blockchain::new`. -/
structure TokenConfig where
  name : String
  symbol : String
  decimals : Nat
  total_supply : Nat
  deriving DecidableEq, Repr

/-- `src/config.rs`: blockchain-level configuration. -/
structure BlockchainConfig where
  genesis_hash : String
  difficulty : Nat
  genesis_pre_mined : Nat
  genesis_miner : String
  deriving DecidableEq, Repr

/-- `src/config.rs`: the combined configuration. -/
structure Config where
  token : TokenConfig
  blockchain : BlockchainConfig
  deriving DecidableEq, Repr

/-- `src/core/blockchain.rs`: the ledger state. -/
structure Chain where
  chain : List Block
  token : Token
  mempool : List Transaction
  accounts : AccountMap
  difficulty : Nat
  deriving DecidableEq, Repr

/-- The loop of `Blockchain::is_valid` (lines 192-219) from index 1 on:
`prev` is the block at the previous index, `rest` the blocks still to check.
The first failed linkage or hash recomputation returns `false` immediately. -/
def chainCheck (sha : String → String) : Block → List Block → Bool
  | _, [] => true
  | prev, cur :: rest =>
    if cur.previous_hash ≠ prev.hash then false
    else if cur.hash ≠ blockStoredHash sha cur then false
    else chainCheck sha cur rest

/-- `Blockchain::is_valid` on a bare chain: the genesis block is exempt; each
later block must link to its predecessor's stored hash and must re-hash to
its own stored hash. -/
def chainIsValid (sha : String → String) : List Block → Bool
  | [] => true
  | b :: rest => chainCheck sha b rest

/-- `Blockchain::is_valid` on the ledger state. -/
def Chain.isValid (sha : String → String) (bc : Chain) : Bool :=
  chainIsValid sha bc.chain

/-- `Blockchain::new` (lines 24-60): rejects a pre-mine larger than the total
supply, otherwise initializes the token, the single pre-mined account, and the
mined genesis block.  `genesisTimestamp`/`fuel` parameterize `Utc::now()` and
the mining loop of the genesis `Block::new`; `Except.ok none` means genesis
mining has not terminated within `fuel`. -/
def chainNew (sha : String → String) (config : Config) (genesisTimestamp : String)
    (fuel : Nat) : Except String (Option Chain) :=
  if config.token.total_supply < config.blockchain.genesis_pre_mined then
    .error "ERR_TOTAL_SUPPLY_LESS_THAN_PRE_MINED"
  else
    match blockNew sha 0 [] config.blockchain.genesis_hash
        config.blockchain.difficulty genesisTimestamp fuel with
    | none => .ok none
    | some genesisBlock =>
      .ok (some
        { chain := [genesisBlock]
          token := tokenNew config.token.name config.token.symbol
            config.token.decimals config.token.total_supply
          mempool := []
          accounts := [(config.blockchain.genesis_miner, config.blockchain.genesis_pre_mined)]
          difficulty := config.blockchain.difficulty })

/-- `Blockchain::add_block` (lines 68-101): drain and validate the mempool;
with no accepted transaction, stop (mempool cleared).  Otherwise mine a block
one past the last block, linked to its hash, append it, re-verify the whole
chain, and either pop the block (rollback) or commit the batch to the real
accounts.  `timestamp` stands for `Utc::now()` inside `Block::new`; `none`
means mining has not terminated within `fuel` (or, unreachably from a
constructed ledger, that `chain.last().unwrap()` would have panicked). -/
def Chain.addBlock (sha : String → String) (bc : Chain) (timestamp : String)
    (fuel : Nat) : Option Chain :=
  let validTransactions := processMempool bc.accounts bc.mempool
  let bc1 : Chain := { bc with mempool := [] }
  if validTransactions = [] then some bc1
  else
    match bc1.chain.getLast? with
    | none => none
    | some lastBlock =>
      match blockNew sha (lastBlock.index + 1) validTransactions lastBlock.hash
          bc1.difficulty timestamp fuel with
      | none => none
      | some newBlock =>
        let bc2 : Chain := { bc1 with chain := bc1.chain ++ [newBlock] }
        if bc2.isValid sha = false then
          some { bc2 with chain := bc2.chain.dropLast }
        else
          some { bc2 with accounts := executeTransactions bc2.accounts validTransactions }

/-- The ideal-arithmetic (no wrapping) replay of a batch. -/
def executeExact (accounts : AccountMap) : List Transaction → AccountMap
  | [] => accounts
  | t :: rest =>
    let a1 := amSet accounts t.sender (amGetD accounts t.sender - t.amount)
    let a2 := amSet a1 t.receiver (amGetD a1 t.receiver + t.amount)
    executeExact a2 rest

/-- Concrete stand-in digest function for closed computations. -/
def shaW : String → String := fun _ => "h"

/-- Concrete token used by the closed computations below. -/
def tokW : Token := tokenNew "Token" "TOK" 8 21000000

/-- Concrete genesis block, consistent with `shaW`. -/
def gW : Block := ⟨0, "t0", [], "gh", "h", 0⟩

/-- Concrete second block correctly linked to `gW` under `shaW`. -/
def b1W : Block := ⟨1, "t1", [], "h", "h", 0⟩

/-- Concrete valid two-block ledger. -/
def bcW : Chain := ⟨[gW, b1W], tokW, [], [("A", 5)], 0⟩

/-- Concrete tampered block: `previous_hash` does not match `gW.hash`. -/
def bT : Block := ⟨1, "t1", [], "x", "h", 0⟩

/-- Concrete ledger with a tampered committed block and a pending transfer. -/
def bcR : Chain := ⟨[gW, bT], tokW, [⟨"A", "B", 1⟩], [("A", 5)], 0⟩

/-- Concrete ledger with an empty mempool. -/
def bcE : Chain := ⟨[gW], tokW, [], [("A", 5)], 0⟩

/-- `gW` with mutated `timestamp`, `transactions` and `previous_hash` but the
same stored `hash`. -/
def gW2 : Block := ⟨0, "tampered", [⟨"A", "B", 1⟩], "zz", "h", 0⟩

/-! ## Theorems -/

@[simp] theorem amLookup_nil (key : String) : amLookup [] key = none := rfl

@[simp] theorem amLookup_cons (k key : String) (v : Nat) (rest : AccountMap) :
    amLookup ((k, v) :: rest) key = if k = key then some v else amLookup rest key := rfl

theorem amLookup_set_self (m : AccountMap) (key : String) (val : Nat) :
    amLookup (amSet m key val) key = some val := by
  induction m with
  | nil => simp [amSet]
  | cons p rest ih =>
    obtain ⟨k, v⟩ := p
    by_cases h : k = key <;> simp [amSet, h, ih]

theorem amLookup_set_other (m : AccountMap) (key key' : String) (val : Nat)
    (h : key ≠ key') : amLookup (amSet m key val) key' = amLookup m key' := by
  induction m with
  | nil => simp [amSet, h]
  | cons p rest ih =>
    obtain ⟨k, v⟩ := p
    by_cases hk : k = key
    · subst hk
      simp [amSet, h]
    · simp [amSet, hk, ih]

theorem amGetD_set_self (m : AccountMap) (key : String) (val : Nat) :
    amGetD (amSet m key val) key = val := by
  simp [amGetD, amLookup_set_self]

theorem amGetD_set_other (m : AccountMap) (key key' : String) (val : Nat)
    (h : key ≠ key') : amGetD (amSet m key val) key' = amGetD m key' := by
  simp [amGetD, amLookup_set_other m key key' val h]

theorem amLookup_orInsert0_self (m : AccountMap) (key : String) :
    amLookup (amOrInsert0 m key) key = some (amGetD m key) := by
  unfold amOrInsert0 amGetD
  cases h : amLookup m key with
  | none => simp [amLookup_set_self]
  | some v => simp [h]

theorem amGetD_orInsert0 (m : AccountMap) (key key' : String) :
    amGetD (amOrInsert0 m key) key' = amGetD m key' := by
  unfold amOrInsert0
  cases h : amLookup m key with
  | some v => rfl
  | none =>
    by_cases hk : key = key'
    · subst hk
      simp [amGetD, amLookup_set_self, h]
    · simp [amGetD, amLookup_set_other m key key' 0 hk]

theorem amLookup_orInsert0_other (m : AccountMap) (key key' : String)
    (h : key ≠ key') : amLookup (amOrInsert0 m key) key' = amLookup m key' := by
  unfold amOrInsert0
  cases hm : amLookup m key with
  | some v => rfl
  | none => exact amLookup_set_other m key key' 0 h

theorem U64LIMIT_pos : 0 < U64LIMIT :=
  Nat.pos_pow_of_pos 64 (by omega)

theorem amGetD_lt_of_WF (m : AccountMap) (key : String) (h : amWF m) :
    amGetD m key < U64LIMIT := by
  induction m with
  | nil => simpa [amGetD] using U64LIMIT_pos
  | cons p rest ih =>
    obtain ⟨k, v⟩ := p
    by_cases hk : k = key
    · have hv : amGetD ((k, v) :: rest) key = v := by simp [amGetD, hk]
      rw [hv]
      exact h (k, v) (List.mem_cons_self _ _)
    · have hv : amGetD ((k, v) :: rest) key = amGetD rest key := by simp [amGetD, hk]
      rw [hv]
      exact ih (fun q hq => h q (List.mem_cons_of_mem _ hq))

theorem amWF_set (m : AccountMap) (key : String) (val : Nat) (hm : amWF m)
    (hv : val < U64LIMIT) : amWF (amSet m key val) := by
  induction m with
  | nil =>
    intro p hp
    simp [amSet] at hp
    simp [hp, hv]
  | cons q rest ih =>
    obtain ⟨k, v⟩ := q
    intro p hp
    by_cases hk : k = key
    · simp [amSet, hk] at hp
      rcases hp with hp | hp
      · simp [hp, hv]
      · exact hm p (List.mem_cons_of_mem _ hp)
    · simp [amSet, hk] at hp
      rcases hp with hp | hp
      · exact hm p (hp ▸ List.mem_cons_self _ _)
      · exact ih (fun q hq => hm q (List.mem_cons_of_mem _ hq)) p hp

theorem amWF_orInsert0 (m : AccountMap) (key : String) (hm : amWF m) :
    amWF (amOrInsert0 m key) := by
  unfold amOrInsert0
  cases h : amLookup m key with
  | some v => exact hm
  | none => exact amWF_set m key 0 hm U64LIMIT_pos

/-- A successful validation: every check passes and the temporary balances are
debited/credited exactly as the source does. -/
theorem validate_ok (t : Transaction) (temp : AccountMap) (sbal : Nat)
    (hs : t.sender ≠ "") (hr : t.receiver ≠ "") (hd : t.sender ≠ t.receiver)
    (ha : t.amount ≠ 0) (hb : amLookup temp t.sender = some sbal)
    (ham : t.amount ≤ sbal)
    (hov : amGetD temp t.receiver + t.amount < U64LIMIT) :
    validateTransactionWithTempBalances t temp =
      (.ok (), amSet (amSet (amOrInsert0 temp t.receiver) t.sender (sbal - t.amount))
        t.receiver (amGetD temp t.receiver + t.amount)) := by
  have hrs : t.receiver ≠ t.sender := fun h => hd h.symm
  have hg : amGetD (amOrInsert0 temp t.receiver) t.receiver = amGetD temp t.receiver :=
    amGetD_orInsert0 temp t.receiver t.receiver
  have hl : amLookup (amOrInsert0 temp t.receiver) t.sender = amLookup temp t.sender :=
    amLookup_orInsert0_other temp t.receiver t.sender hrs
  have hg2 : amGetD (amSet (amOrInsert0 temp t.receiver) t.sender (sbal - t.amount))
      t.receiver = amGetD temp t.receiver := by
    rw [amGetD_set_other _ t.sender t.receiver _ hd, hg]
  simp only [validateTransactionWithTempBalances, hs, hr, hd, ha, or_self, if_false,
    false_or, or_false, hg, hl, hb, hg2]
  rw [if_neg (by omega), if_neg (by omega)]

/-- A validation failing the sender-balance check: the error carries the
requested amount and the available balance, and the temporary balances keep
only the receiver-entry side effect. -/
theorem validate_insufficient (t : Transaction) (temp : AccountMap) (sbal : Nat)
    (hs : t.sender ≠ "") (hr : t.receiver ≠ "") (hd : t.sender ≠ t.receiver)
    (ha : t.amount ≠ 0) (hb : amLookup temp t.sender = some sbal)
    (ham : sbal < t.amount)
    (hov : amGetD temp t.receiver + t.amount < U64LIMIT) :
    validateTransactionWithTempBalances t temp =
      (.error (.InsufficientBalance t.sender t.amount sbal), amOrInsert0 temp t.receiver) := by
  have hrs : t.receiver ≠ t.sender := fun h => hd h.symm
  have hg : amGetD (amOrInsert0 temp t.receiver) t.receiver = amGetD temp t.receiver :=
    amGetD_orInsert0 temp t.receiver t.receiver
  have hl : amLookup (amOrInsert0 temp t.receiver) t.sender = amLookup temp t.sender :=
    amLookup_orInsert0_other temp t.receiver t.sender hrs
  simp only [validateTransactionWithTempBalances, hs, hr, hd, ha, or_self, if_false,
    false_or, or_false, hg, hl, hb]
  rw [if_neg (by omega), if_pos ham]

/-- Inversion of a successful validation: the checks that must have passed and
the exact shape of the updated temporary balances. -/
theorem validate_ok_inv (t : Transaction) (temp : AccountMap)
    (h : (validateTransactionWithTempBalances t temp).fst = .ok ()) :
    ∃ sbal, amLookup temp t.sender = some sbal ∧ t.amount ≤ sbal ∧
      t.sender ≠ "" ∧ t.receiver ≠ "" ∧ t.sender ≠ t.receiver ∧ t.amount ≠ 0 ∧
      amGetD temp t.receiver + t.amount < U64LIMIT ∧
      (validateTransactionWithTempBalances t temp).snd =
        amSet (amSet (amOrInsert0 temp t.receiver) t.sender (sbal - t.amount))
          t.receiver (amGetD temp t.receiver + t.amount) := by
  by_cases h1 : t.sender = "" ∨ t.receiver = ""
  · simp [validateTransactionWithTempBalances, h1] at h
  · obtain ⟨hs, hr⟩ := not_or.mp h1
    by_cases h2 : t.sender = t.receiver
    · simp [validateTransactionWithTempBalances, hs, hr, h2] at h
    · by_cases h3 : t.amount = 0
      · simp [validateTransactionWithTempBalances, hs, hr, h2, h3] at h
      · have hrs : t.receiver ≠ t.sender := fun hx => h2 hx.symm
        have hg : amGetD (amOrInsert0 temp t.receiver) t.receiver = amGetD temp t.receiver :=
          amGetD_orInsert0 temp t.receiver t.receiver
        have hl : amLookup (amOrInsert0 temp t.receiver) t.sender = amLookup temp t.sender :=
          amLookup_orInsert0_other temp t.receiver t.sender hrs
        by_cases h4 : U64LIMIT ≤ amGetD temp t.receiver + t.amount
        · simp [validateTransactionWithTempBalances, hs, hr, h2, h3, hg, h4] at h
        · cases hb : amLookup temp t.sender with
          | none =>
            simp [validateTransactionWithTempBalances, hs, hr, h2, h3, hg, h4, hl, hb] at h
          | some sbal =>
            by_cases h5 : sbal < t.amount
            · simp [validateTransactionWithTempBalances, hs, hr, h2, h3, hg, h4, hl, hb, h5] at h
            · refine ⟨sbal, rfl, by omega, hs, hr, h2, h3, by omega, ?_⟩
              rw [validate_ok t temp sbal hs hr h2 h3 hb (by omega) (by omega)]

/-- A failed validation leaves every balance unchanged (the only side effect,
inserting the receiver with balance `0`, does not change any default-`0`
read). -/
theorem validate_error_getD (t : Transaction) (temp : AccountMap)
    (e : TransactionError)
    (h : (validateTransactionWithTempBalances t temp).fst = .error e) (k : String) :
    amGetD (validateTransactionWithTempBalances t temp).snd k = amGetD temp k := by
  by_cases h1 : t.sender = "" ∨ t.receiver = ""
  · simp [validateTransactionWithTempBalances, h1]
  · obtain ⟨hs, hr⟩ := not_or.mp h1
    by_cases h2 : t.sender = t.receiver
    · simp [validateTransactionWithTempBalances, hs, hr, h2]
    · by_cases h3 : t.amount = 0
      · simp [validateTransactionWithTempBalances, hs, hr, h2, h3]
      · have hrs : t.receiver ≠ t.sender := fun hx => h2 hx.symm
        have hg : amGetD (amOrInsert0 temp t.receiver) t.receiver = amGetD temp t.receiver :=
          amGetD_orInsert0 temp t.receiver t.receiver
        have hl : amLookup (amOrInsert0 temp t.receiver) t.sender = amLookup temp t.sender :=
          amLookup_orInsert0_other temp t.receiver t.sender hrs
        by_cases h4 : U64LIMIT ≤ amGetD temp t.receiver + t.amount
        · simp [validateTransactionWithTempBalances, hs, hr, h2, h3, hg, h4]
          exact amGetD_orInsert0 temp t.receiver k
        · cases hb : amLookup temp t.sender with
          | none =>
            simp [validateTransactionWithTempBalances, hs, hr, h2, h3, hg, h4, hl, hb]
            exact amGetD_orInsert0 temp t.receiver k
          | some sbal =>
            by_cases h5 : sbal < t.amount
            · simp [validateTransactionWithTempBalances, hs, hr, h2, h3, hg, h4, hl, hb, h5]
              exact amGetD_orInsert0 temp t.receiver k
            · rw [validate_ok t temp sbal hs hr h2 h3 hb (by omega) (by omega)] at h
              simp at h

/-- Unfolding equation: a rejected transaction is skipped (`continue`). -/
theorem processMempoolAux_cons_error (temp : AccountMap) (t : Transaction)
    (rest : List Transaction) (e : TransactionError)
    (h : (validateTransactionWithTempBalances t temp).fst = .error e) :
    processMempoolAux temp (t :: rest) =
      processMempoolAux (validateTransactionWithTempBalances t temp).snd rest := by
  simp only [processMempoolAux, h]

/-- Unfolding equation: an accepted transaction is appended to the batch. -/
theorem processMempoolAux_cons_ok (temp : AccountMap) (t : Transaction)
    (rest : List Transaction)
    (h : (validateTransactionWithTempBalances t temp).fst = .ok ()) :
    processMempoolAux temp (t :: rest) =
      (t :: (processMempoolAux (validateTransactionWithTempBalances t temp).snd rest).fst,
        (processMempoolAux (validateTransactionWithTempBalances t temp).snd rest).snd) := by
  simp only [processMempoolAux, h]

/-- The temporary balances after a validation are one of three things: the
input map, the input map with the receiver inserted at `0`, or (on success)
the debited/credited map. -/
theorem validate_snd_cases (t : Transaction) (temp : AccountMap) :
    (validateTransactionWithTempBalances t temp).snd = temp ∨
    (validateTransactionWithTempBalances t temp).snd = amOrInsert0 temp t.receiver ∨
    (validateTransactionWithTempBalances t temp).fst = .ok () := by
  by_cases h1 : t.sender = "" ∨ t.receiver = ""
  · left
    simp [validateTransactionWithTempBalances, h1]
  · obtain ⟨hs, hr⟩ := not_or.mp h1
    by_cases h2 : t.sender = t.receiver
    · left
      simp [validateTransactionWithTempBalances, hs, hr, h2]
    · by_cases h3 : t.amount = 0
      · left
        simp [validateTransactionWithTempBalances, hs, hr, h2, h3]
      · have hrs : t.receiver ≠ t.sender := fun hx => h2 hx.symm
        have hg : amGetD (amOrInsert0 temp t.receiver) t.receiver = amGetD temp t.receiver :=
          amGetD_orInsert0 temp t.receiver t.receiver
        have hl : amLookup (amOrInsert0 temp t.receiver) t.sender = amLookup temp t.sender :=
          amLookup_orInsert0_other temp t.receiver t.sender hrs
        by_cases h4 : U64LIMIT ≤ amGetD temp t.receiver + t.amount
        · right; left
          simp [validateTransactionWithTempBalances, hs, hr, h2, h3, hg, h4]
        · cases hb : amLookup temp t.sender with
          | none =>
            right; left
            simp [validateTransactionWithTempBalances, hs, hr, h2, h3, hg, h4, hl, hb]
          | some sbal =>
            by_cases h5 : sbal < t.amount
            · right; left
              simp [validateTransactionWithTempBalances, hs, hr, h2, h3, hg, h4, hl, hb, h5]
            · right; right
              rw [validate_ok t temp sbal hs hr h2 h3 hb (by omega) (by omega)]

/-- Validation keeps every stored balance below `2 ^ 64`. -/
theorem validate_snd_WF (t : Transaction) (temp : AccountMap) (hwf : amWF temp) :
    amWF (validateTransactionWithTempBalances t temp).snd := by
  rcases validate_snd_cases t temp with h | h | h
  · rw [h]; exact hwf
  · rw [h]; exact amWF_orInsert0 temp t.receiver hwf
  · obtain ⟨sbal, hb, ham, hs, hr, hd, ha, hov, hsnd⟩ := validate_ok_inv t temp h
    rw [hsnd]
    have hsb : sbal < U64LIMIT := by
      have := amGetD_lt_of_WF temp t.sender hwf
      simpa [amGetD, hb] using this
    exact amWF_set _ t.receiver _
      (amWF_set _ t.sender _ (amWF_orInsert0 temp t.receiver hwf) (by omega)) (by omega)

/-- Main simulation invariant behind the commit-safety claim: if the
temporary projection agrees with the committed accounts on every balance
(default-`0` reads included), then the batch that `process_mempool` accepts
from this point on replays safely on the committed accounts. -/
theorem processMempoolAux_execSafe (mempool : List Transaction) :
    ∀ (temp accounts : AccountMap),
      (∀ k, amGetD temp k = amGetD accounts k) → amWF temp →
      execSafe accounts (processMempoolAux temp mempool).fst = true := by
  induction mempool with
  | nil =>
    intro temp accounts _ _
    rfl
  | cons t rest ih =>
    intro temp accounts hsim hwf
    cases hv : (validateTransactionWithTempBalances t temp).fst with
    | error e =>
      rw [processMempoolAux_cons_error temp t rest e hv]
      exact ih _ accounts
        (fun k => (validate_error_getD t temp e hv k).trans (hsim k))
        (validate_snd_WF t temp hwf)
    | ok u =>
      cases u
      obtain ⟨sbal, hb, ham, hs, hr, hd, ha, hov, hsnd⟩ := validate_ok_inv t temp hv
      rw [processMempoolAux_cons_ok temp t rest hv]
      have hgs : amGetD temp t.sender = sbal := by simp [amGetD, hb]
      have hacc : amGetD accounts t.sender = sbal := by rw [← hsim t.sender, hgs]
      have hrs : t.receiver ≠ t.sender := fun hx => hd hx.symm
      have hrecv : amGetD (amSet accounts t.sender (sbal - t.amount)) t.receiver =
          amGetD temp t.receiver := by
        rw [amGetD_set_other accounts t.sender t.receiver _ hd, ← hsim t.receiver]
      simp only [execSafe, hacc, hrecv]
      rw [if_neg (by omega), if_neg (by omega)]
      refine ih _ _ ?_ ?_
      · intro k
        rw [hsnd]
        by_cases hk : t.receiver = k
        · subst hk
          rw [amGetD_set_self, amGetD_set_self]
        · rw [amGetD_set_other _ t.receiver k _ hk, amGetD_set_other _ t.receiver k _ hk]
          by_cases hk2 : t.sender = k
          · subst hk2
            rw [amGetD_set_self, amGetD_set_self]
          · rw [amGetD_set_other _ t.sender k _ hk2, amGetD_set_other _ t.sender k _ hk2,
              amGetD_orInsert0, hsim k]
      · exact validate_snd_WF t temp hwf

/-- Expanding `is_valid` on the loop from index 1: element `i` of the tail
must link to element `i` of the full chain (its predecessor) and re-hash to
its stored hash. -/
theorem chainCheck_iff (sha : String → String) (prev : Block) (l : List Block) :
    chainCheck sha prev l = true ↔
      ∀ i (h : i < l.length),
        (l.get ⟨i, h⟩).previous_hash = ((prev :: l).get ⟨i, Nat.lt_succ_of_lt h⟩).hash ∧
        (l.get ⟨i, h⟩).hash = blockStoredHash sha (l.get ⟨i, h⟩) := by
  induction l generalizing prev with
  | nil => simp [chainCheck]
  | cons b rest ih =>
    have hstep : chainCheck sha prev (b :: rest) = true ↔
        (b.previous_hash = prev.hash ∧ b.hash = blockStoredHash sha b ∧
          chainCheck sha b rest = true) := by
      by_cases hp : b.previous_hash = prev.hash
      · by_cases hh : b.hash = blockStoredHash sha b
        · simp [chainCheck, hp, hh]
        · simp [chainCheck, hp, hh]
      · simp [chainCheck, hp]
    rw [hstep, ih b]
    constructor
    · rintro ⟨h1, h2, h3⟩ i h
      match i with
      | 0 => simpa using ⟨h1, h2⟩
      | i + 1 =>
        have h' : i < rest.length := by simpa using h
        simpa using h3 i h'
    · intro H
      have h0 := H 0 (by simp)
      refine ⟨by simpa using h0.1, by simpa using h0.2, ?_⟩
      intro i h
      have := H (i + 1) (by simpa using Nat.succ_lt_succ h)
      simpa using this

/-- `add_block` with nothing accepted from the mempool: no block is created,
only the mempool is cleared. -/
theorem addBlock_of_empty (sha : String → String) (bc : Chain) (ts : String) (fuel : Nat)
    (he : processMempool bc.accounts bc.mempool = []) :
    Chain.addBlock sha bc ts fuel = some { bc with mempool := [] } := by
  simp [Chain.addBlock, he]

/-- `add_block` when the appended chain fails re-verification: the new block
is popped again, so only the mempool changes. -/
theorem addBlock_of_rollback (sha : String → String) (bc : Chain) (ts : String) (fuel : Nat)
    (lastBlock newBlock : Block)
    (he : processMempool bc.accounts bc.mempool ≠ [])
    (hlast : bc.chain.getLast? = some lastBlock)
    (hmine : blockNew sha (lastBlock.index + 1) (processMempool bc.accounts bc.mempool)
      lastBlock.hash bc.difficulty ts fuel = some newBlock)
    (hval : chainIsValid sha (bc.chain ++ [newBlock]) = false) :
    Chain.addBlock sha bc ts fuel = some { bc with mempool := [] } := by
  unfold Chain.addBlock
  simp only [if_neg he, hlast, hmine, Chain.isValid]
  rw [if_pos hval]
  simp [List.dropLast_concat]

/-- `add_block` when the appended chain passes re-verification: the block
stays and the accepted batch is committed to the real accounts. -/
theorem addBlock_of_commit (sha : String → String) (bc : Chain) (ts : String) (fuel : Nat)
    (lastBlock newBlock : Block)
    (he : processMempool bc.accounts bc.mempool ≠ [])
    (hlast : bc.chain.getLast? = some lastBlock)
    (hmine : blockNew sha (lastBlock.index + 1) (processMempool bc.accounts bc.mempool)
      lastBlock.hash bc.difficulty ts fuel = some newBlock)
    (hval : chainIsValid sha (bc.chain ++ [newBlock]) = true) :
    Chain.addBlock sha bc ts fuel = some
      { bc with
        mempool := []
        chain := bc.chain ++ [newBlock]
        accounts := executeTransactions bc.accounts
          (processMempool bc.accounts bc.mempool) } := by
  unfold Chain.addBlock
  simp only [if_neg he, hlast, hmine, Chain.isValid]
  rw [if_neg (by rw [hval]; simp)]

/-- `add_block` on an empty chain would panic at `last().unwrap()`; the
embedding returns `none` (unreachable from a constructed ledger). -/
theorem addBlock_none_cases (sha : String → String) (bc : Chain) (ts : String) (fuel : Nat)
    (he : processMempool bc.accounts bc.mempool ≠ [])
    (hlast : bc.chain.getLast? = none) :
    Chain.addBlock sha bc ts fuel = none := by
  unfold Chain.addBlock
  simp only [if_neg he, hlast]

/-- `add_block` when mining does not terminate within `fuel`. -/
theorem addBlock_none_mine (sha : String → String) (bc : Chain) (ts : String) (fuel : Nat)
    (lastBlock : Block)
    (he : processMempool bc.accounts bc.mempool ≠ [])
    (hlast : bc.chain.getLast? = some lastBlock)
    (hmine : blockNew sha (lastBlock.index + 1) (processMempool bc.accounts bc.mempool)
      lastBlock.hash bc.difficulty ts fuel = none) :
    Chain.addBlock sha bc ts fuel = none := by
  unfold Chain.addBlock
  simp only [if_neg he, hlast, hmine]

/-- Every terminating run of `add_block` is one of: nothing accepted (no
block), rollback (block popped), or commit (block kept, batch applied). -/
theorem addBlock_cases (sha : String → String) (bc : Chain) (ts : String) (fuel : Nat)
    (bc' : Chain) (h : Chain.addBlock sha bc ts fuel = some bc') :
    (processMempool bc.accounts bc.mempool = [] ∧ bc' = { bc with mempool := [] }) ∨
    (∃ lastBlock newBlock,
      processMempool bc.accounts bc.mempool ≠ [] ∧
      bc.chain.getLast? = some lastBlock ∧
      blockNew sha (lastBlock.index + 1) (processMempool bc.accounts bc.mempool)
        lastBlock.hash bc.difficulty ts fuel = some newBlock ∧
      ((chainIsValid sha (bc.chain ++ [newBlock]) = false ∧
        bc' = { bc with mempool := [] }) ∨
       (chainIsValid sha (bc.chain ++ [newBlock]) = true ∧
        bc' = { bc with
                mempool := []
                chain := bc.chain ++ [newBlock]
                accounts := executeTransactions bc.accounts
                  (processMempool bc.accounts bc.mempool) }))) := by
  by_cases he : processMempool bc.accounts bc.mempool = []
  · left
    rw [addBlock_of_empty sha bc ts fuel he] at h
    exact ⟨he, (Option.some.inj h).symm⟩
  · right
    cases hlast : bc.chain.getLast? with
    | none =>
      rw [addBlock_none_cases sha bc ts fuel he hlast] at h
      exact absurd h (by simp)
    | some lastBlock =>
      cases hmine : blockNew sha (lastBlock.index + 1)
          (processMempool bc.accounts bc.mempool) lastBlock.hash bc.difficulty ts fuel with
      | none =>
        rw [addBlock_none_mine sha bc ts fuel lastBlock he hlast hmine] at h
        exact absurd h (by simp)
      | some newBlock =>
        refine ⟨lastBlock, newBlock, he, rfl, hmine, ?_⟩
        by_cases hval : chainIsValid sha (bc.chain ++ [newBlock]) = false
        · left
          rw [addBlock_of_rollback sha bc ts fuel lastBlock newBlock he hlast hmine hval] at h
          exact ⟨hval, (Option.some.inj h).symm⟩
        · right
          have hval2 : chainIsValid sha (bc.chain ++ [newBlock]) = true := by
            revert hval
            cases chainIsValid sha (bc.chain ++ [newBlock]) <;> simp
          rw [addBlock_of_commit sha bc ts fuel lastBlock newBlock he hlast hmine hval2] at h
          exact ⟨hval2, (Option.some.inj h).symm⟩

theorem padZeros_length (w n : Nat) (h : (toString n).length ≤ w) :
    (padZeros w n).length = w := by
  simp [padZeros, String.length_append]
  omega

/-- Index-based reading of `is_valid` on a bare chain. -/
theorem chainIsValid_iff_forall (sha : String → String) (c : List Block) :
    chainIsValid sha c = true ↔
      ∀ i (h : i + 1 < c.length),
        (c.get ⟨i + 1, h⟩).previous_hash = (c.get ⟨i, Nat.lt_of_succ_lt h⟩).hash ∧
        (c.get ⟨i + 1, h⟩).hash = blockStoredHash sha (c.get ⟨i + 1, h⟩) := by
  cases c with
  | nil => simp [chainIsValid]
  | cons b rest =>
    rw [show chainIsValid sha (b :: rest) = chainCheck sha b rest from rfl, chainCheck_iff]
    constructor
    · intro H i h
      have h' : i < rest.length := by simpa using h
      have := H i h'
      simpa using this
    · intro H i h
      have := H i (by simpa using Nat.succ_lt_succ h)
      simpa using this

/-- On a batch that replays safely, the wrapping `u64` arithmetic of
`execute_transactions` coincides with ideal arithmetic. -/
theorem executeTransactions_eq_exact (txs : List Transaction) :
    ∀ accounts : AccountMap, amWF accounts → execSafe accounts txs = true →
      executeTransactions accounts txs = executeExact accounts txs := by
  induction txs with
  | nil => intro accounts _ _; rfl
  | cons t rest ih =>
    intro accounts hwf hsafe
    unfold execSafe at hsafe
    by_cases h1 : amGetD accounts t.sender < t.amount
    · simp only [h1, if_pos rfl] at hsafe
      exact absurd hsafe (by simp)
    · simp only [if_neg h1] at hsafe
      by_cases h2 : U64LIMIT ≤
          amGetD (amSet accounts t.sender (amGetD accounts t.sender - t.amount)) t.receiver
            + t.amount
      · rw [if_pos h2] at hsafe
        exact absurd hsafe (by simp)
      · rw [if_neg h2] at hsafe
        have hsb : amGetD accounts t.sender < U64LIMIT := amGetD_lt_of_WF accounts t.sender hwf
        have hdeb : (amGetD accounts t.sender + U64LIMIT - t.amount) % U64LIMIT =
            amGetD accounts t.sender - t.amount := by
          rw [show amGetD accounts t.sender + U64LIMIT - t.amount =
              amGetD accounts t.sender - t.amount + U64LIMIT by omega,
            Nat.add_mod_right]
          exact Nat.mod_eq_of_lt (by omega)
        have hcred : (amGetD (amSet accounts t.sender (amGetD accounts t.sender - t.amount))
            t.receiver + t.amount) % U64LIMIT =
            amGetD (amSet accounts t.sender (amGetD accounts t.sender - t.amount)) t.receiver
              + t.amount :=
          Nat.mod_eq_of_lt (by omega)
        unfold executeTransactions executeExact
        simp only [hdeb, hcred]
        refine ih _ ?_ hsafe
        refine amWF_set _ t.receiver _ (amWF_set _ t.sender _ hwf (by omega)) (by omega)

/-- C4: the validation checks run in source order, each with its own error. -/
theorem validation_checks_first_failure (t : Transaction) (temp : AccountMap) :
    (validateTransactionWithTempBalances t temp).fst =
      (if t.sender = "" ∨ t.receiver = "" then .error .AddressCannotBeEmpty
       else if t.sender = t.receiver then .error .SenderAndReceiverCannotBeTheSame
       else if t.amount = 0 then .error .AmountMustBeGreaterThanZero
       else if U64LIMIT ≤ amGetD temp t.receiver + t.amount then .error .BalanceOverflow
       else
         match amLookup temp t.sender with
         | none => .error (.SenderDoesNotExist t.sender)
         | some senderBalance =>
           if senderBalance < t.amount then
             .error (.InsufficientBalance t.sender t.amount senderBalance)
           else .ok ()) := by
  by_cases h1 : t.sender = "" ∨ t.receiver = ""
  · simp [validateTransactionWithTempBalances, h1]
  · obtain ⟨hs, hr⟩ := not_or.mp h1
    by_cases h2 : t.sender = t.receiver
    · simp [validateTransactionWithTempBalances, hs, hr, h2]
    · by_cases h3 : t.amount = 0
      · simp [validateTransactionWithTempBalances, hs, hr, h2, h3]
      · have hrs : t.receiver ≠ t.sender := fun h => h2 h.symm
        have hg : amGetD (amOrInsert0 temp t.receiver) t.receiver = amGetD temp t.receiver :=
          amGetD_orInsert0 temp t.receiver t.receiver
        have hl : amLookup (amOrInsert0 temp t.receiver) t.sender = amLookup temp t.sender :=
          amLookup_orInsert0_other temp t.receiver t.sender hrs
        simp only [validateTransactionWithTempBalances, h1, if_false, h2, h3, hg, hl]
        split
        · rfl
        · split
          · rfl
          · split <;> rfl

/-- C5: `is_valid` is true exactly when every block from index 1 on links to
its predecessor's stored hash and re-hashes (via the hash calculator, from
its own stored fields) to its stored hash. -/
theorem isValid_iff_linked_and_rehashed (sha : String → String) (bc : Chain) :
    bc.isValid sha = true ↔
      ∀ i (h : i + 1 < bc.chain.length),
        (bc.chain.get ⟨i + 1, h⟩).previous_hash =
          (bc.chain.get ⟨i, Nat.lt_of_succ_lt h⟩).hash ∧
        (bc.chain.get ⟨i + 1, h⟩).hash =
          calculateBlockHash sha (bc.chain.get ⟨i + 1, h⟩).index
            (bc.chain.get ⟨i + 1, h⟩).timestamp (bc.chain.get ⟨i + 1, h⟩).transactions
            (bc.chain.get ⟨i + 1, h⟩).previous_hash (bc.chain.get ⟨i + 1, h⟩).nonce :=
  chainIsValid_iff_forall sha bc.chain

/-- C5 witness: a concrete two-block chain is valid, via the
characterization. -/
theorem isValid_iff_linked_and_rehashed_witness : Chain.isValid shaW bcW = true := by
  refine (isValid_iff_linked_and_rehashed shaW bcW).mpr ?_
  intro i h
  have hlen : bcW.chain.length = 2 := by decide
  rw [hlen] at h
  have hi : i = 0 := by omega
  subst hi
  exact ⟨rfl, rfl⟩

/-- C8: `format_amount` is integer division plus a zero-padded remainder. -/
theorem format_amount_fixed_point (name symbol : String) (d supply amount : Nat) :
    (tokenNew name symbol d supply).formatAmount amount =
      toString (amount / 10 ^ d) ++ "." ++ padZeros d (amount % 10 ^ d) ∧
    (1 ≤ d → (padZeros d (amount % 10 ^ d)).length = d) ∧
    (tokenNew name symbol 8 supply).formatAmount 0 = "0.00000000" ∧
    (tokenNew name symbol 8 supply).formatAmount
      ((tokenNew name symbol 8 supply).smallest_unit * 10) = "10.00000000" := by
  refine ⟨rfl, ?_, ?_, ?_⟩
  · intro hd
    refine padZeros_length d _ ?_
    exact Nat.repr_length _ d hd (Nat.mod_lt _ (Nat.pos_pow_of_pos d (by omega)))
  · show toString (0 / 10 ^ 8) ++ "." ++ padZeros 8 (0 % 10 ^ 8) = "0.00000000"
    decide
  · show toString (10 ^ 8 * 10 / 10 ^ 8) ++ "." ++ padZeros 8 (10 ^ 8 * 10 % 10 ^ 8) =
      "10.00000000"
    decide

/-- C8 witness: the fractional part of a concrete amount is padded to exactly
8 characters. -/
theorem format_amount_fixed_point_witness :
    (padZeros 8 (12345678901 % 10 ^ 8)).length = 8 :=
  (format_amount_fixed_point "Token" "TOK" 8 21000000 12345678901).2.1 (by omega)

/-- C10: the batch accepted by `process_mempool` replays on the committed
accounts without any `u64` underflow or overflow, so the unchecked arithmetic
of `execute_transactions` coincides with ideal arithmetic. -/
theorem validated_batch_commits_without_wrap (accounts : AccountMap)
    (mempool : List Transaction) (hwf : amWF accounts) :
    execSafe accounts (processMempool accounts mempool) = true ∧
    executeTransactions accounts (processMempool accounts mempool) =
      executeExact accounts (processMempool accounts mempool) := by
  have hs := processMempoolAux_execSafe mempool accounts accounts (fun _ => rfl) hwf
  exact ⟨hs, executeTransactions_eq_exact _ accounts hwf hs⟩

/-- C10 witness: a concrete mempool whose accepted batch commits safely. -/
theorem validated_batch_commits_without_wrap_witness :
    execSafe [("A", 10)] (processMempool [("A", 10)]
      [⟨"A", "B", 6⟩, ⟨"A", "C", 6⟩]) = true ∧
    executeTransactions [("A", 10)] (processMempool [("A", 10)]
      [⟨"A", "B", 6⟩, ⟨"A", "C", 6⟩]) =
      executeExact [("A", 10)] (processMempool [("A", 10)]
        [⟨"A", "B", 6⟩, ⟨"A", "C", 6⟩]) :=
  validated_batch_commits_without_wrap [("A", 10)] [⟨"A", "B", 6⟩, ⟨"A", "C", 6⟩]
    (by decide)

/-- C1: when the re-verification after the append fails, the block is popped
and no balance change is committed; when it succeeds, the accepted batch is
applied to the real accounts, in batch order. -/
theorem addBlock_rollback_and_commit (sha : String → String) (bc : Chain) (ts : String)
    (fuel : Nat) (bc' : Chain)
    (h : Chain.addBlock sha bc ts fuel = some bc')
    (hne : processMempool bc.accounts bc.mempool ≠ []) :
    ∃ lastBlock newBlock,
      bc.chain.getLast? = some lastBlock ∧
      blockNew sha (lastBlock.index + 1) (processMempool bc.accounts bc.mempool)
        lastBlock.hash bc.difficulty ts fuel = some newBlock ∧
      (chainIsValid sha (bc.chain ++ [newBlock]) = false →
        bc'.chain = bc.chain ∧ bc'.accounts = bc.accounts ∧ bc'.mempool = []) ∧
      (chainIsValid sha (bc.chain ++ [newBlock]) = true →
        bc'.chain = bc.chain ++ [newBlock] ∧
        bc'.accounts = executeTransactions bc.accounts
          (processMempool bc.accounts bc.mempool) ∧
        bc'.mempool = []) := by
  rcases addBlock_cases sha bc ts fuel bc' h with ⟨he, _⟩ |
    ⟨lastBlock, newBlock, _, hlast, hmine, hcase⟩
  · exact absurd he hne
  · refine ⟨lastBlock, newBlock, hlast, hmine, ?_, ?_⟩
    · intro hvf
      rcases hcase with ⟨hval, hbc⟩ | ⟨hval, hbc⟩
      · rw [hbc]
        exact ⟨rfl, rfl, rfl⟩
      · rw [hval] at hvf
        exact absurd hvf (by simp)
    · intro hvt
      rcases hcase with ⟨hval, hbc⟩ | ⟨hval, hbc⟩
      · rw [hval] at hvt
        exact absurd hvt (by simp)
      · rw [hbc]
        exact ⟨rfl, rfl, rfl⟩

/-- C1 witness: a concrete ledger whose second block was tampered with, so
the appended chain fails re-verification and rolls back. -/
theorem addBlock_rollback_and_commit_witness :
    ∃ lastBlock newBlock,
      bcR.chain.getLast? = some lastBlock ∧
      blockNew shaW (lastBlock.index + 1) (processMempool bcR.accounts bcR.mempool)
        lastBlock.hash bcR.difficulty "t2" 0 = some newBlock ∧
      (chainIsValid shaW (bcR.chain ++ [newBlock]) = false →
        (⟨[gW, bT], tokW, [], [("A", 5)], 0⟩ : Chain).chain = bcR.chain ∧
        (⟨[gW, bT], tokW, [], [("A", 5)], 0⟩ : Chain).accounts = bcR.accounts ∧
        (⟨[gW, bT], tokW, [], [("A", 5)], 0⟩ : Chain).mempool = []) ∧
      (chainIsValid shaW (bcR.chain ++ [newBlock]) = true →
        (⟨[gW, bT], tokW, [], [("A", 5)], 0⟩ : Chain).chain = bcR.chain ++ [newBlock] ∧
        (⟨[gW, bT], tokW, [], [("A", 5)], 0⟩ : Chain).accounts =
          executeTransactions bcR.accounts (processMempool bcR.accounts bcR.mempool) ∧
        (⟨[gW, bT], tokW, [], [("A", 5)], 0⟩ : Chain).mempool = []) :=
  addBlock_rollback_and_commit shaW bcR "t2" 0 ⟨[gW, bT], tokW, [], [("A", 5)], 0⟩
    (by decide) (by decide)

/-- C7: with no accepted transaction `add_block` only clears the mempool
(chain and balances untouched), and every terminating `add_block` call leaves
the mempool empty. -/
theorem addBlock_noop_and_unconditional_drain :
    (∀ (sha : String → String) (bc : Chain) (ts : String) (fuel : Nat),
      processMempool bc.accounts bc.mempool = [] →
      Chain.addBlock sha bc ts fuel = some { bc with mempool := [] }) ∧
    (∀ (sha : String → String) (bc : Chain) (ts : String) (fuel : Nat) (bc' : Chain),
      Chain.addBlock sha bc ts fuel = some bc' → bc'.mempool = []) := by
  constructor
  · exact addBlock_of_empty
  · intro sha bc ts fuel bc' h
    rcases addBlock_cases sha bc ts fuel bc' h with ⟨_, hbc⟩ |
      ⟨_, _, _, _, _, ⟨_, hbc⟩ | ⟨_, hbc⟩⟩ <;> rw [hbc]

/-- C7 witness: an empty mempool leaves a concrete ledger unchanged. -/
theorem addBlock_noop_and_unconditional_drain_witness :
    Chain.addBlock shaW bcE "t1" 0 = some { bcE with mempool := [] } :=
  addBlock_noop_and_unconditional_drain.1 shaW bcE "t1" 0 (by decide)

/-- C2 (amended): a freshly constructed ledger is valid; a terminating
`add_block` preserves validity; and replacing a committed non-genesis block
by a block with the same stored hash but a different `previous_hash`, or
whose stored fields re-hash to a different digest (as a collision-free hash
guarantees for a changed `timestamp` or transaction list), makes `is_valid`
false.  The genesis block's own fields are never re-checked. -/
theorem chain_linkage_and_tampering :
    (∀ (sha : String → String) (config : Config) (ts : String) (fuel : Nat) (bc : Chain),
      chainNew sha config ts fuel = .ok (some bc) → bc.isValid sha = true) ∧
    (∀ (sha : String → String) (bc : Chain) (ts : String) (fuel : Nat) (bc' : Chain),
      bc.isValid sha = true → Chain.addBlock sha bc ts fuel = some bc' →
      bc'.isValid sha = true) ∧
    (∀ (sha : String → String) (bc : Chain) (i : Nat) (b' : Block)
      (hi2 : i < bc.chain.length),
      1 ≤ i → bc.isValid sha = true →
      b'.hash = (bc.chain.get ⟨i, hi2⟩).hash →
      (b'.previous_hash ≠ (bc.chain.get ⟨i, hi2⟩).previous_hash ∨
        blockStoredHash sha b' ≠ blockStoredHash sha (bc.chain.get ⟨i, hi2⟩)) →
      Chain.isValid sha { bc with chain := bc.chain.set i b' } = false) := by
  refine ⟨?_, ?_, ?_⟩
  · intro sha config ts fuel bc h
    unfold chainNew at h
    by_cases hc : config.token.total_supply < config.blockchain.genesis_pre_mined
    · rw [if_pos hc] at h
      exact absurd h (by simp)
    · rw [if_neg hc] at h
      cases hm : blockNew sha 0 [] config.blockchain.genesis_hash
          config.blockchain.difficulty ts fuel with
      | none =>
        rw [hm] at h
        exact absurd h (by simp)
      | some g =>
        rw [hm] at h
        have hbc := Option.some.inj (Except.ok.inj h)
        rw [← hbc]
        rfl
  · intro sha bc ts fuel bc' hv h
    rcases addBlock_cases sha bc ts fuel bc' h with ⟨_, hbc⟩ |
      ⟨lB, nB, _, _, _, ⟨hval, hbc⟩ | ⟨hval, hbc⟩⟩
    · rw [hbc]
      exact hv
    · rw [hbc]
      exact hv
    · rw [hbc]
      exact hval
  · intro sha bc i b' hi2 hi1 hval hhash hdiff
    have Horig := (chainIsValid_iff_forall sha bc.chain).mp hval
    have key : ¬ chainIsValid sha (bc.chain.set i b') = true := by
      intro htrue
      have Hmut := (chainIsValid_iff_forall sha (bc.chain.set i b')).mp htrue
      obtain ⟨j, rfl⟩ : ∃ j, i = j + 1 := ⟨i - 1, by omega⟩
      have hlen : j + 1 < (bc.chain.set (j + 1) b').length := by simpa using hi2
      have H := Hmut j hlen
      have hget1 : (bc.chain.set (j + 1) b').get ⟨j + 1, hlen⟩ = b' := by
        simp [List.get_eq_getElem]
      have hget0 : (bc.chain.set (j + 1) b').get ⟨j, Nat.lt_of_succ_lt hlen⟩ =
          bc.chain.get ⟨j, Nat.lt_of_succ_lt hi2⟩ := by
        simp [List.get_eq_getElem, List.getElem_set_ne, (by omega : j + 1 ≠ j)]
      have Ho := Horig j hi2
      rw [hget1, hget0] at H
      rcases hdiff with hd | hd
      · exact hd (H.1.trans Ho.1.symm)
      · exact hd (H.2.symm.trans (hhash.trans Ho.2))
    cases hfinal : chainIsValid sha (bc.chain.set i b') with
    | false => exact hfinal
    | true => exact absurd hfinal key

/-- C2 counterexample: in a valid two-block ledger, mutating the genesis
block's `timestamp`, `transactions` and `previous_hash` (keeping its stored
`hash`) leaves `is_valid` true — the genesis block is exempt from both
checks, contradicting the claim for the genesis block. -/
theorem genesis_mutation_keeps_isValid :
    Chain.isValid shaW bcW = true ∧
    (gW2.timestamp ≠ gW.timestamp ∧ gW2.transactions ≠ gW.transactions ∧
      gW2.previous_hash ≠ gW.previous_hash) ∧
    Chain.isValid shaW { bcW with chain := [gW2, b1W] } = true :=
  ⟨by decide, ⟨by decide, by decide, by decide⟩, by decide⟩

/-- C2 witness: tampering with the `previous_hash` of the second block of a
concrete valid two-block ledger invalidates the chain. -/
theorem chain_linkage_and_tampering_witness :
    Chain.isValid shaW { bcW with chain := bcW.chain.set 1 bT } = false :=
  chain_linkage_and_tampering.2.2 shaW bcW 1 bT (by decide) (by omega) (by decide)
    (by decide) (Or.inl (by decide))

/-- Invariant of the mining loop: starting from a nonce below `2 ^ 64` whose
hash is current and below which every nonce has already failed the target,
a successful search returns a block with the original header fields, a hash
meeting the target that recomputes from the stored fields, and no smaller
nonce meeting the target. -/
theorem mineLoop_spec (sha : String → String) (index : Nat) (ts : String)
    (txs : List Transaction) (prev : String) (difficulty : Nat) :
    ∀ (fuel nonce : Nat) (hash : String) (b : Block),
      nonce < U64LIMIT →
      hash = calculateBlockHash sha index ts txs prev nonce →
      (∀ m, m < nonce → stringStartsWith (miningTarget difficulty)
        (calculateBlockHash sha index ts txs prev m) = false) →
      mineLoop sha index ts txs prev difficulty fuel nonce hash = some b →
      (b.index = index ∧ b.timestamp = ts ∧ b.transactions = txs ∧
        b.previous_hash = prev ∧
        stringStartsWith (miningTarget difficulty) b.hash = true ∧
        b.hash = calculateBlockHash sha index ts txs prev b.nonce ∧
        ∀ m, m < b.nonce → stringStartsWith (miningTarget difficulty)
          (calculateBlockHash sha index ts txs prev m) = false) := by
  intro fuel
  induction fuel with
  | zero =>
    intro nonce hash b hn hh hmin hml
    unfold mineLoop at hml
    by_cases hcond : stringStartsWith (miningTarget difficulty) hash = true
    · rw [if_pos hcond] at hml
      have hb := (Option.some.inj hml).symm
      subst hb
      exact ⟨rfl, rfl, rfl, rfl, hcond, hh, hmin⟩
    · rw [if_neg hcond] at hml
      exact absurd hml (by simp)
  | succ f ih =>
    intro nonce hash b hn hh hmin hml
    unfold mineLoop at hml
    by_cases hcond : stringStartsWith (miningTarget difficulty) hash = true
    · rw [if_pos hcond] at hml
      have hb := (Option.some.inj hml).symm
      subst hb
      exact ⟨rfl, rfl, rfl, rfl, hcond, hh, hmin⟩
    · rw [if_neg hcond] at hml
      refine ih ((nonce + 1) % U64LIMIT) _ b (Nat.mod_lt _ U64LIMIT_pos) rfl ?_ hml
      intro m hm
      by_cases hwrap : nonce + 1 < U64LIMIT
      · rw [Nat.mod_eq_of_lt hwrap] at hm
        by_cases hmn : m < nonce
        · exact hmin m hmn
        · have : m = nonce := by omega
          subst this
          rw [← hh]
          revert hcond
          cases stringStartsWith (miningTarget difficulty) hash <;> simp
      · have hL : nonce + 1 = U64LIMIT := by omega
        rw [hL, Nat.mod_self] at hm
        omega

/-- C6: a block returned by mining carries the requested header fields, its
hash meets the difficulty target and recomputes from the stored fields, and
its nonce is the first one (searching upward from 0, recomputing on every
increment) whose hash meets the target. -/
theorem mining_meets_difficulty (sha : String → String) (index : Nat)
    (transactions : List Transaction) (previousHash : String) (difficulty : Nat)
    (ts : String) (fuel : Nat) (b : Block)
    (h : blockNew sha index transactions previousHash difficulty ts fuel = some b) :
    b.index = index ∧ b.timestamp = ts ∧ b.transactions = transactions ∧
    b.previous_hash = previousHash ∧
    stringStartsWith (miningTarget difficulty) b.hash = true ∧
    b.hash = blockStoredHash sha b ∧
    ∀ m, m < b.nonce → stringStartsWith (miningTarget difficulty)
      (calculateBlockHash sha index ts transactions previousHash m) = false := by
  have := mineLoop_spec sha index ts transactions previousHash difficulty fuel 0
    (calculateBlockHash sha index ts transactions previousHash 0) b U64LIMIT_pos rfl
    (by omega) h
  obtain ⟨h1, h2, h3, h4, h5, h6, h7⟩ := this
  refine ⟨h1, h2, h3, h4, h5, ?_, h7⟩
  rw [blockStoredHash, h1, h2, h3, h4]
  exact h6

/-- C6 witness: with difficulty 0 the initial nonce 0 already meets the
target, and the mined block satisfies the full specification. -/
theorem mining_meets_difficulty_witness :
    (⟨2, "t2", [], "h", "h", 0⟩ : Block).index = 2 ∧
    (⟨2, "t2", [], "h", "h", 0⟩ : Block).timestamp = "t2" ∧
    (⟨2, "t2", [], "h", "h", 0⟩ : Block).transactions = [] ∧
    (⟨2, "t2", [], "h", "h", 0⟩ : Block).previous_hash = "h" ∧
    stringStartsWith (miningTarget 0) (⟨2, "t2", [], "h", "h", 0⟩ : Block).hash = true ∧
    (⟨2, "t2", [], "h", "h", 0⟩ : Block).hash =
      blockStoredHash shaW ⟨2, "t2", [], "h", "h", 0⟩ ∧
    ∀ m, m < (⟨2, "t2", [], "h", "h", 0⟩ : Block).nonce →
      stringStartsWith (miningTarget 0)
        (calculateBlockHash shaW 2 "t2" [] "h" m) = false :=
  mining_meets_difficulty shaW 2 [] "h" 0 "t2" 0 ⟨2, "t2", [], "h", "h", 0⟩ (by decide)

/-- C3: with two transactions from the same sender in one pass, each amount
within the committed balance but their sum above it, the first is accepted
and the second is rejected with `InsufficientBalance`, because the projected
balance left after the first is below the second amount. -/
theorem same_sender_batch_ordering (accounts : AccountMap) (t1 t2 : Transaction)
    (bal : Nat)
    (hsame : t2.sender = t1.sender)
    (hs : t1.sender ≠ "") (hr1 : t1.receiver ≠ "") (hr2 : t2.receiver ≠ "")
    (hd1 : t1.sender ≠ t1.receiver) (hd2 : t2.sender ≠ t2.receiver)
    (ha1 : t1.amount ≠ 0) (ha2 : t2.amount ≠ 0)
    (hbal : amLookup accounts t1.sender = some bal)
    (hle1 : t1.amount ≤ bal) (hle2 : t2.amount ≤ bal)
    (hsum : bal < t1.amount + t2.amount)
    (hov1 : amGetD accounts t1.receiver + t1.amount < U64LIMIT)
    (hov2 : amGetD accounts t2.receiver + t1.amount + t2.amount < U64LIMIT) :
    processMempool accounts [t1, t2] = [t1] ∧
    (validateTransactionWithTempBalances t2
        (validateTransactionWithTempBalances t1 accounts).snd).fst =
      .error (.InsufficientBalance t2.sender t2.amount (bal - t1.amount)) ∧
    bal - t1.amount < t2.amount := by
  have hv1 := validate_ok t1 accounts bal hs hr1 hd1 ha1 hbal hle1 hov1
  have hsnd1 : (validateTransactionWithTempBalances t1 accounts).snd =
      amSet (amSet (amOrInsert0 accounts t1.receiver) t1.sender (bal - t1.amount))
        t1.receiver (amGetD accounts t1.receiver + t1.amount) := by
    rw [hv1]
  have hrs1 : t1.receiver ≠ t1.sender := fun hx => hd1 hx.symm
  have hlook2 : amLookup (validateTransactionWithTempBalances t1 accounts).snd t2.sender =
      some (bal - t1.amount) := by
    rw [hsnd1, hsame, amLookup_set_other _ t1.receiver t1.sender _ hrs1,
      amLookup_set_self]
  have hs2 : t2.sender ≠ "" := by
    rw [hsame]
    exact hs
  have hget2 : amGetD (validateTransactionWithTempBalances t1 accounts).snd t2.receiver
      + t2.amount < U64LIMIT := by
    by_cases hrr : t2.receiver = t1.receiver
    · rw [hsnd1, hrr, amGetD_set_self]
      rw [hrr] at hov2
      omega
    · have hrs2 : t1.sender ≠ t2.receiver := by
        rw [← hsame]
        exact hd2
      rw [hsnd1, amGetD_set_other _ t1.receiver t2.receiver _ (fun hx => hrr hx.symm),
        amGetD_set_other _ t1.sender t2.receiver _ hrs2, amGetD_orInsert0]
      omega
  have hv2 := validate_insufficient t2 (validateTransactionWithTempBalances t1 accounts).snd
    (bal - t1.amount) hs2 hr2 hd2 ha2 hlook2 (by omega) hget2
  refine ⟨?_, by rw [hv2], by omega⟩
  unfold processMempool
  rw [processMempoolAux_cons_ok accounts t1 [t2] (by rw [hv1]),
    processMempoolAux_cons_error _ t2 [] _ (by rw [hv2])]
  rfl

/-- C3 witness: balance 10 and two transfers of 6 from the same sender — the
first is accepted, the second rejected with 4 remaining. -/
theorem same_sender_batch_ordering_witness :
    processMempool [("A", 10)] [⟨"A", "B", 6⟩, ⟨"A", "C", 6⟩] = [⟨"A", "B", 6⟩] ∧
    (validateTransactionWithTempBalances ⟨"A", "C", 6⟩
        (validateTransactionWithTempBalances ⟨"A", "B", 6⟩ [("A", 10)]).snd).fst =
      .error (.InsufficientBalance "A" 6 4) ∧
    10 - 6 < 6 :=
  same_sender_batch_ordering [("A", 10)] ⟨"A", "B", 6⟩ ⟨"A", "C", 6⟩ 10 rfl
    (by decide) (by decide) (by decide) (by decide) (by decide) (by decide) (by decide)
    (by decide) (by decide) (by decide) (by decide) (by decide) (by decide)

/-- If validation fails with `SenderDoesNotExist` or `InsufficientBalance`,
the first three checks passed and the returned temporary balances are the
input with the receiver inserted at `0` when absent. -/
theorem validate_sender_error_inv (t : Transaction) (temp : AccountMap)
    (e : TransactionError)
    (h : (validateTransactionWithTempBalances t temp).fst = .error e)
    (hkind : (∃ s, e = .SenderDoesNotExist s) ∨
      ∃ s r a, e = .InsufficientBalance s r a) :
    t.sender ≠ "" ∧ t.receiver ≠ "" ∧ t.sender ≠ t.receiver ∧ t.amount ≠ 0 ∧
    (validateTransactionWithTempBalances t temp).snd = amOrInsert0 temp t.receiver := by
  by_cases h1 : t.sender = "" ∨ t.receiver = ""
  · rcases hkind with ⟨s, rfl⟩ | ⟨s, r, a, rfl⟩ <;>
      simp [validateTransactionWithTempBalances, h1] at h
  · obtain ⟨hs, hr⟩ := not_or.mp h1
    by_cases h2 : t.sender = t.receiver
    · rcases hkind with ⟨s, rfl⟩ | ⟨s, r, a, rfl⟩ <;>
        simp [validateTransactionWithTempBalances, hs, hr, h2] at h
    · by_cases h3 : t.amount = 0
      · rcases hkind with ⟨s, rfl⟩ | ⟨s, r, a, rfl⟩ <;>
          simp [validateTransactionWithTempBalances, hs, hr, h2, h3] at h
      · have hrs : t.receiver ≠ t.sender := fun hx => h2 hx.symm
        have hg : amGetD (amOrInsert0 temp t.receiver) t.receiver = amGetD temp t.receiver :=
          amGetD_orInsert0 temp t.receiver t.receiver
        have hl : amLookup (amOrInsert0 temp t.receiver) t.sender = amLookup temp t.sender :=
          amLookup_orInsert0_other temp t.receiver t.sender hrs
        by_cases h4 : U64LIMIT ≤ amGetD temp t.receiver + t.amount
        · rcases hkind with ⟨s, rfl⟩ | ⟨s, r, a, rfl⟩ <;>
            simp [validateTransactionWithTempBalances, hs, hr, h2, h3, hg, h4] at h
        · refine ⟨hs, hr, h2, h3, ?_⟩
          cases hb : amLookup temp t.sender with
          | none =>
            simp [validateTransactionWithTempBalances, hs, hr, h2, h3, hg, h4, hl, hb]
          | some sbal =>
            by_cases h5 : sbal < t.amount
            · simp [validateTransactionWithTempBalances, hs, hr, h2, h3, hg, h4, hl, hb, h5]
            · rw [validate_ok t temp sbal hs hr h2 h3 hb (by omega) (by omega)] at h
              simp at h

/-- C9: a validation failing on the sender checks has already inserted the
transaction's receiver into the temporary balances (with balance `0` when
absent), so an immediately following transaction sent from that receiver is
rejected with `InsufficientBalance`, not `SenderDoesNotExist`. -/
theorem rejected_validation_inserts_receiver :
    (∀ (t : Transaction) (temp : AccountMap) (e : TransactionError),
      (validateTransactionWithTempBalances t temp).fst = .error e →
      ((∃ s, e = .SenderDoesNotExist s) ∨ ∃ s r a, e = .InsufficientBalance s r a) →
      amLookup (validateTransactionWithTempBalances t temp).snd t.receiver =
        some (amGetD temp t.receiver) ∧
      (amLookup temp t.receiver = none →
        amLookup (validateTransactionWithTempBalances t temp).snd t.receiver =
          some 0)) ∧
    (∀ (t1 t2 : Transaction) (temp : AccountMap) (e : TransactionError),
      (validateTransactionWithTempBalances t1 temp).fst = .error e →
      ((∃ s, e = .SenderDoesNotExist s) ∨ ∃ s r a, e = .InsufficientBalance s r a) →
      amLookup temp t1.receiver = none →
      t2.sender = t1.receiver →
      t2.receiver ≠ "" → t2.sender ≠ t2.receiver → t2.amount ≠ 0 →
      amGetD temp t2.receiver + t2.amount < U64LIMIT →
      (validateTransactionWithTempBalances t2
          (validateTransactionWithTempBalances t1 temp).snd).fst =
        .error (.InsufficientBalance t2.sender t2.amount 0)) := by
  constructor
  · intro t temp e h hkind
    obtain ⟨_, _, _, _, hsnd⟩ := validate_sender_error_inv t temp e h hkind
    rw [hsnd, amLookup_orInsert0_self]
    refine ⟨rfl, ?_⟩
    intro hnone
    simp [amGetD, hnone]
  · intro t1 t2 temp e h hkind hnone hsame hr2 hd2 ha2 hov
    obtain ⟨hs1, hr1, hd1, ha1, hsnd⟩ := validate_sender_error_inv t1 temp e h hkind
    rw [hsnd]
    have hlook : amLookup (amOrInsert0 temp t1.receiver) t2.sender = some 0 := by
      rw [hsame, amLookup_orInsert0_self]
      simp [amGetD, hnone]
    have hs2 : t2.sender ≠ "" := by
      rw [hsame]
      exact hr1
    have hov2 : amGetD (amOrInsert0 temp t1.receiver) t2.receiver + t2.amount
        < U64LIMIT := by
      rw [amGetD_orInsert0]
      exact hov
    rw [validate_insufficient t2 (amOrInsert0 temp t1.receiver) 0 hs2 hr2 hd2 ha2 hlook
      (by omega) hov2]

/-- C9 witness: after `⟨A → X⟩` is rejected for insufficient balance, the
follow-up transaction sent from `X` fails with `InsufficientBalance`, not
`SenderDoesNotExist`. -/
theorem rejected_validation_inserts_receiver_witness :
    (validateTransactionWithTempBalances ⟨"X", "B", 1⟩
        (validateTransactionWithTempBalances ⟨"A", "X", 10⟩ [("A", 5)]).snd).fst =
      .error (.InsufficientBalance "X" 1 0) :=
  rejected_validation_inserts_receiver.2 ⟨"A", "X", 10⟩ ⟨"X", "B", 1⟩ [("A", 5)]
    (.InsufficientBalance "A" 10 5) rfl (Or.inr ⟨"A", 10, 5, rfl⟩) (by decide)
    rfl (by decide) (by decide) (by decide) (by decide)

end Blockchain
